import Mathlib

/-!
Verification of the goldbach-algebraic-vacuum-zero-ramification repository.

The two Python sources are embedded shallowly:

* `src/scripts/export_data.py`: `sieve` (boolean Eratosthenes sieve),
  `odd_radical` (trial-division odd radical), the single-N scan loop, and
  the series-evolution ratio expression.
* `src/scripts/goldbach_rigid_scan.py`: `sieve_radicals` (radical sieve),
  `odd_rad` (sieve-lookup odd radical), `scan_N`, the category statistics
  and the 2^k-series ratio expression.

Conventions of the embedding:

* Python arbitrary-precision integers become `ℕ`/`ℤ` (`scan_N`'s argument is
  `ℤ` since Python accepts any integer; all array indices touched by reachable
  code are nonnegative).  The `numpy.int64` radical table never overflows for
  the sizes the program uses (radical(n) ≤ n ≤ 16384 « 2^63), so it is `ℕ`.
* Arrays/bytearrays become functions `ℕ → ℕ` / `ℕ → Bool` updated with
  `Function.update`; out-of-range accesses (a real `IndexError` in numpy) are
  analysed separately through `scanQueries`, the exact list of indices the
  scan reads.
* Python `while` loops become structural recursion on an explicit fuel that
  dominates the loop's termination measure (so the functions stay
  kernel-computable); guards delimit the inputs on which the source
  terminates, and congruence lemmas show the fuel never runs out there.
* Floating-point `math.log` arithmetic is modelled over `ℝ` with `Real.log`.
-/

/-- Fuel-indexed body of the `while temp % d == 0: temp //= d` loop of the
sources; structural recursion on the fuel keeps it kernel-computable.  Each
pass replaces `x` by `x / d < x`, so fuel `x` always suffices
(`stripFactorAux_congr`). -/
def stripFactorAux (d : ℕ) : ℕ → ℕ → ℕ
  | 0, x => x
  | fuel + 1, x =>
    if 2 ≤ d ∧ x ≠ 0 ∧ x % d = 0 then stripFactorAux d fuel (x / d) else x

/-- The `while temp % d == 0: temp //= d` loop shared by `odd_radical`
(`export_data.py` lines 18 and 23) and `odd_rad` (`goldbach_rigid_scan.py`
lines 38-39).  The guards `2 ≤ d` and `x ≠ 0` delimit the inputs on which the
Python loop terminates; every reachable call site satisfies them. -/
def stripFactor (d x : ℕ) : ℕ := stripFactorAux d x x

theorem stripFactorAux_zero (d : ℕ) : ∀ fuel, stripFactorAux d fuel 0 = 0 := by
  intro fuel
  cases fuel with
  | zero => rfl
  | succ fuel =>
    rw [stripFactorAux, if_neg]
    rintro ⟨-, hx, -⟩
    exact hx rfl

theorem stripFactorAux_congr (d : ℕ) :
    ∀ f1 f2 x, x ≤ f1 → x ≤ f2 →
      stripFactorAux d f1 x = stripFactorAux d f2 x := by
  intro f1
  induction f1 with
  | zero =>
    intro f2 x h1 h2
    have : x = 0 := by omega
    subst this
    rw [stripFactorAux_zero, stripFactorAux_zero]
  | succ f1 ih =>
    intro f2 x h1 h2
    cases f2 with
    | zero =>
      have : x = 0 := by omega
      subst this
      rw [stripFactorAux_zero, stripFactorAux_zero]
    | succ f2 =>
      rw [stripFactorAux, stripFactorAux]
      split
      · next h =>
        have hlt : x / d < x := Nat.div_lt_self (Nat.pos_of_ne_zero h.2.1) (by omega)
        exact ih f2 (x / d) (by omega) (by omega)
      · rfl

/-- The one-step unfolding of `stripFactor`, matching the source loop. -/
theorem stripFactor_unfold (d x : ℕ) :
    stripFactor d x
      = if 2 ≤ d ∧ x ≠ 0 ∧ x % d = 0 then stripFactor d (x / d) else x := by
  cases x with
  | zero =>
    rw [stripFactor, stripFactorAux_zero, if_neg]
    rintro ⟨-, hx, -⟩
    exact hx rfl
  | succ n =>
    rw [stripFactor, stripFactorAux]
    split
    · next h =>
      have hlt : (n + 1) / d < n + 1 :=
        Nat.div_lt_self (Nat.pos_of_ne_zero h.2.1) (by omega)
      exact stripFactorAux_congr d n ((n + 1) / d) ((n + 1) / d)
        (by omega) le_rfl
    · rfl

theorem stripFactor_ne_zero (d : ℕ) : ∀ x, x ≠ 0 → stripFactor d x ≠ 0 := by
  intro x
  induction x using Nat.strong_induction_on with
  | _ x ih =>
    intro hx
    rw [stripFactor_unfold]
    split
    · next h =>
      have hdvd : d ∣ x := Nat.dvd_of_mod_eq_zero h.2.2
      have hdx : d ≤ x := Nat.le_of_dvd (Nat.pos_of_ne_zero hx) hdvd
      exact ih (x / d) (Nat.div_lt_self (Nat.pos_of_ne_zero hx) (by omega))
        (by
          have : 1 ≤ x / d := (Nat.one_le_div_iff (by omega)).2 hdx
          omega)
    · exact hx

theorem stripFactor_dvd (d : ℕ) : ∀ x, stripFactor d x ∣ x := by
  intro x
  induction x using Nat.strong_induction_on with
  | _ x ih =>
    rw [stripFactor_unfold]
    split
    · next h =>
      have := ih (x / d) (Nat.div_lt_self (Nat.pos_of_ne_zero h.2.1) (by omega))
      exact this.trans (Nat.div_dvd_of_dvd (Nat.dvd_of_mod_eq_zero h.2.2))
    · exact dvd_rfl

theorem stripFactor_not_dvd (d : ℕ) (hd : 2 ≤ d) :
    ∀ x, x ≠ 0 → ¬ d ∣ stripFactor d x := by
  intro x
  induction x using Nat.strong_induction_on with
  | _ x ih =>
    intro hx
    rw [stripFactor_unfold]
    split
    · next h =>
      have hdvd : d ∣ x := Nat.dvd_of_mod_eq_zero h.2.2
      have hdx : d ≤ x := Nat.le_of_dvd (Nat.pos_of_ne_zero hx) hdvd
      exact ih (x / d) (Nat.div_lt_self (Nat.pos_of_ne_zero hx) (by omega))
        (by
          have : 1 ≤ x / d := (Nat.one_le_div_iff (by omega)).2 hdx
          omega)
    · next h =>
      intro hdvd
      exact h ⟨hd, hx, Nat.mod_eq_zero_of_dvd hdvd⟩

/-- On input not divisible by `d`, the stripping loop is the identity. -/
theorem stripFactor_eq_self {d x : ℕ} (h : ¬ d ∣ x) : stripFactor d x = x := by
  rw [stripFactor_unfold]
  split
  · next hc => exact absurd (Nat.dvd_of_mod_eq_zero hc.2.2) h
  · rfl

/-- Mathematical reference value: the radical of `n`, the product of its
distinct prime factors (`1` for `n ≤ 1`). -/
def radical (n : ℕ) : ℕ := ∏ p ∈ n.primeFactors, p

/-- Mathematical reference value: the odd radical of `n`, the product of its
distinct odd prime factors. -/
def oddRadMath (n : ℕ) : ℕ := ∏ p ∈ n.primeFactors.erase 2, p

theorem radical_pos (n : ℕ) : 0 < radical n :=
  Finset.prod_pos fun _ hp => (Nat.prime_of_mem_primeFactors hp).pos

theorem oddRadMath_pos (n : ℕ) : 0 < oddRadMath n :=
  Finset.prod_pos fun p hp =>
    (Nat.prime_of_mem_primeFactors (Finset.mem_of_mem_erase hp)).pos

theorem radical_prime {p : ℕ} (hp : p.Prime) : radical p = p := by
  rw [radical, hp.primeFactors, Finset.prod_singleton]

/-- For prime `d`, a prime divides `stripFactor d x` iff it divides `x` and
is not `d`. -/
theorem stripFactor_prime_dvd {d : ℕ} (hd : d.Prime) :
    ∀ x, x ≠ 0 → ∀ p : ℕ, p.Prime → (p ∣ stripFactor d x ↔ p ∣ x ∧ p ≠ d) := by
  intro x
  induction x using Nat.strong_induction_on with
  | _ x ih =>
    intro hx p hp
    rw [stripFactor_unfold]
    split
    · next h =>
      have hdvd : d ∣ x := Nat.dvd_of_mod_eq_zero h.2.2
      have hdx : d ≤ x := Nat.le_of_dvd (Nat.pos_of_ne_zero hx) hdvd
      have hq : x / d ≠ 0 := by
        have : 1 ≤ x / d := (Nat.one_le_div_iff (by omega)).2 hdx
        omega
      rw [ih (x / d) (Nat.div_lt_self (Nat.pos_of_ne_zero hx) (by omega)) hq p hp]
      constructor
      · rintro ⟨hpx, hpd⟩
        exact ⟨hpx.trans (Nat.div_dvd_of_dvd hdvd), hpd⟩
      · rintro ⟨hpx, hpd⟩
        refine ⟨?_, hpd⟩
        obtain ⟨c, hc⟩ := hdvd
        subst hc
        rcases (Nat.Prime.dvd_mul hp).1 hpx with hcase | hcase
        · exact absurd ((Nat.prime_dvd_prime_iff_eq hp hd).1 hcase) hpd
        · simpa [Nat.mul_div_cancel_left _ hd.pos] using hcase
    · next h =>
      have hnd : ¬ d ∣ x := fun hdvd => h ⟨hd.two_le, hx, Nat.mod_eq_zero_of_dvd hdvd⟩
      constructor
      · intro hpx
        refine ⟨hpx, fun hpd => hnd (hpd ▸ hpx)⟩
      · exact fun hc => hc.1

/-- For prime `d` and `x ≠ 0`, stripping `d` removes exactly `d` from the
prime-factor set. -/
theorem stripFactor_primeFactors {d : ℕ} (hd : d.Prime) {x : ℕ} (hx : x ≠ 0) :
    (stripFactor d x).primeFactors = x.primeFactors.erase d := by
  ext p
  rw [Finset.mem_erase, Nat.mem_primeFactors, Nat.mem_primeFactors]
  constructor
  · rintro ⟨hp, hdvd, -⟩
    have := (stripFactor_prime_dvd hd x hx p hp).1 hdvd
    exact ⟨this.2, hp, this.1, hx⟩
  · rintro ⟨hpd, hp, hdvd, -⟩
    exact ⟨hp, (stripFactor_prime_dvd hd x hx p hp).2 ⟨hdvd, hpd⟩,
      stripFactor_ne_zero d x hx⟩

theorem stripFactor_le (d x : ℕ) : stripFactor d x ≤ x := by
  by_cases hx : x = 0
  · subst hx
    rw [stripFactor_unfold]
    simp
  · exact Nat.le_of_dvd (Nat.pos_of_ne_zero hx) (stripFactor_dvd d x)

theorem stripFactor_lt {d x : ℕ} (hd : 2 ≤ d) (hx : x ≠ 0) (hdvd : d ∣ x) :
    stripFactor d x < x := by
  rw [stripFactor_unfold, if_pos ⟨hd, hx, Nat.mod_eq_zero_of_dvd hdvd⟩]
  calc stripFactor d (x / d) ≤ x / d := stripFactor_le d (x / d)
    _ < x := Nat.div_lt_self (Nat.pos_of_ne_zero hx) (by omega)

/-- Fuel-indexed trial-division loop of `odd_radical` (`export_data.py`
lines 19-25): starting from odd divisor candidate `d = 3`, accumulate into
`r` each odd `d` dividing `temp`, dividing it out completely, while
`d * d ≤ temp`; finally multiply in the remaining prime cofactor if it
exceeds 1.  Every iteration strictly decreases `3 * temp + 2 - d` (either
`temp` shrinks or `d` grows by 2 with `d ≤ temp`), so that measure bounds
the iteration count and `trialLoop` below runs with fuel `3 * temp + 3`. -/
def trialLoopAux : ℕ → ℕ → ℕ → ℕ → ℕ
  | 0, _, _, r => r
  | fuel + 1, d, temp, r =>
    if d * d ≤ temp then
      if temp % d = 0 then
        trialLoopAux fuel (d + 2) (stripFactor d temp) (r * d)
      else trialLoopAux fuel (d + 2) temp r
    else if 1 < temp then r * temp else r

/-- The trial-division loop of `odd_radical` (`export_data.py` lines 19-25),
run with sufficient fuel. -/
def trialLoop (d temp r : ℕ) : ℕ := trialLoopAux (3 * temp + 3) d temp r

/-- `odd_radical` from `export_data.py` lines 15-26: `1` for `n ≤ 1`;
otherwise strip the factors of 2 from `n` and run the trial-division loop
from `d = 3` with accumulator `r = 1`. -/
def odd_radical (n : ℕ) : ℕ :=
  if n ≤ 1 then 1 else trialLoop 3 (stripFactor 2 n) 1

/-- The trial-division loop computes `r` times the radical of `temp`, provided
`temp`'s prime factors all lie at or beyond the odd candidate `d`. -/
theorem trialLoopAux_eq : ∀ fuel d temp r : ℕ, 3 * temp + 2 - d < fuel →
    temp ≠ 0 → d % 2 = 1 → 3 ≤ d →
    (∀ p : ℕ, p.Prime → p ∣ temp → d ≤ p) →
    trialLoopAux fuel d temp r = r * radical temp := by
  intro fuel
  induction fuel with
  | zero =>
    intro d temp r hfuel
    omega
  | succ fuel ih =>
    intro d temp r hfuel htemp hodd hd3 hmin
    rw [trialLoopAux]
    by_cases hle : d * d ≤ temp
    · have hdd : d ≤ d * d := Nat.le_mul_of_pos_left d (by omega)
      have hdt : d ≤ temp := le_trans hdd hle
      rw [if_pos hle]
      by_cases hmod : temp % d = 0
      · rw [if_pos hmod]
        have hdvd : d ∣ temp := Nat.dvd_of_mod_eq_zero hmod
        have hdprime : d.Prime := by
          obtain ⟨p0, hp0, hp0d⟩ := Nat.exists_prime_and_dvd (show d ≠ 1 by omega)
          have h1 : d ≤ p0 := hmin p0 hp0 (hp0d.trans hdvd)
          have h2 : p0 ≤ d := Nat.le_of_dvd (by omega) hp0d
          have : p0 = d := le_antisymm h2 h1
          exact this ▸ hp0
        have htemp' : stripFactor d temp ≠ 0 := stripFactor_ne_zero d temp htemp
        have htlt : stripFactor d temp < temp := stripFactor_lt (by omega) htemp hdvd
        rw [ih (d + 2) (stripFactor d temp) (r * d) (by omega) htemp'
          (by omega) (by omega) ?_]
        · have hmem : d ∈ temp.primeFactors :=
            Nat.mem_primeFactors.2 ⟨hdprime, hdvd, htemp⟩
          rw [radical, radical, stripFactor_primeFactors hdprime htemp,
            ← Finset.mul_prod_erase _ _ hmem, ← mul_assoc]
        · intro p hp hpdvd
          have h1 := (stripFactor_prime_dvd hdprime temp htemp p hp).1 hpdvd
          have h2 : d ≤ p := hmin p hp h1.1
          have hp2 : p ≠ 2 := by omega
          have hpodd : p % 2 = 1 := Nat.odd_iff.1 (hp.odd_of_ne_two hp2)
          have := h1.2
          omega
      · rw [if_neg hmod]
        rw [ih (d + 2) temp r (by omega) htemp (by omega) (by omega) ?_]
        intro p hp hpdvd
        have h1 : d ≤ p := hmin p hp hpdvd
        have hpd : p ≠ d := by
          rintro rfl
          exact hmod (Nat.mod_eq_zero_of_dvd hpdvd)
        have hp2 : p ≠ 2 := by omega
        have hpodd : p % 2 = 1 := Nat.odd_iff.1 (hp.odd_of_ne_two hp2)
        omega
    · rw [if_neg hle]
      by_cases hlt : 1 < temp
      · rw [if_pos hlt]
        have hprime : temp.Prime := by
          by_contra hnp
          have hmfp : temp.minFac.Prime := Nat.minFac_prime (by omega)
          have h1 : d ≤ temp.minFac := hmin _ hmfp (Nat.minFac_dvd temp)
          have h2 : temp.minFac ^ 2 ≤ temp :=
            Nat.minFac_sq_le_self (by omega) hnp
          have h3 : d * d ≤ temp.minFac * temp.minFac := Nat.mul_le_mul h1 h1
          rw [pow_two] at h2
          omega
        rw [radical_prime hprime]
      · rw [if_neg hlt]
        have : temp = 1 := by omega
        subst this
        simp [radical]

theorem trialLoop_eq (d temp r : ℕ) (h1 : temp ≠ 0) (h2 : d % 2 = 1)
    (h3 : 3 ≤ d) (h4 : ∀ p : ℕ, p.Prime → p ∣ temp → d ≤ p) :
    trialLoop d temp r = r * radical temp :=
  trialLoopAux_eq (3 * temp + 3) d temp r (by omega) h1 h2 h3 h4

/-- `odd_radical` computes the product of the distinct odd prime factors. -/
theorem odd_radical_eq (n : ℕ) : odd_radical n = oddRadMath n := by
  rw [odd_radical]
  split
  · next h =>
    have : n = 0 ∨ n = 1 := by omega
    rcases this with rfl | rfl <;> simp [oddRadMath]
  · next h =>
    have hn : n ≠ 0 := by omega
    have h2 : (2 : ℕ).Prime := Nat.prime_two
    have htemp : stripFactor 2 n ≠ 0 := stripFactor_ne_zero 2 n hn
    rw [trialLoop_eq 3 (stripFactor 2 n) 1 htemp (by omega) le_rfl ?_, one_mul,
      radical, stripFactor_primeFactors h2 hn, oddRadMath]
    intro p hp hpdvd
    have h1 := (stripFactor_prime_dvd h2 n hn p hp).1 hpdvd
    have hp2 : p ≠ 2 := h1.2
    have := hp.two_le
    have hpodd : p % 2 = 1 := Nat.odd_iff.1 (hp.odd_of_ne_two hp2)
    omega

/-- State of `sieve_radicals` (`goldbach_rigid_scan.py` lines 21-33): the
`rads` int64 array and the `is_prime` bytearray, embedded as functions. -/
structure RadState where
  rads : ℕ → ℕ
  isp : ℕ → Bool

/-- Body of the inner loop of `sieve_radicals` (lines 28-31): at multiple `j`
of `i`, mark `j` composite when `j ≠ i` and multiply the radical entry by
`i`. -/
def innerStep (i j : ℕ) (s : RadState) : RadState :=
  { rads := Function.update s.rads j (s.rads j * i),
    isp := if j = i then s.isp else Function.update s.isp j false }

/-- The inner loop `for j in range(i, limit + 1, i)` (line 28): the multiples
`i * 1, …, i * (limit / i)` in order. -/
def markMultiples (limit i : ℕ) (s : RadState) : RadState :=
  (List.range (limit / i)).foldl (fun t k => innerStep i (i * (k + 1)) t) s

/-- Body of the outer loop of `sieve_radicals` (lines 26-31). -/
def sieveStep (limit : ℕ) (s : RadState) (i : ℕ) : RadState :=
  if s.isp i then markMultiples limit i s else s

/-- Initial state (lines 23-25): all radicals 1; `is_prime` all 1 except
indices 0 and 1. -/
def initState : RadState :=
  { rads := fun _ => 1, isp := fun m => decide (2 ≤ m) }

/-- The outer loop `for i in range(2, limit + 1)` of `sieve_radicals`. -/
def sieveLoop (limit : ℕ) : RadState :=
  (List.range' 2 (limit - 1)).foldl (sieveStep limit) initState

/-- `sieve_radicals` (`goldbach_rigid_scan.py` lines 21-33): returns the
radical table and the set of surviving indices in `[2, limit]` (the Python
`primes_set`, embedded as a list with decidable membership). -/
def sieve_radicals (limit : ℕ) : (ℕ → ℕ) × List ℕ :=
  let s := sieveLoop limit
  (s.rads, (List.range' 2 (limit - 1)).filter (fun i => s.isp i))

theorem natMulLtMulLeft {i a b : ℕ} (hi : 0 < i) (h : a < b) :
    i * a < i * b :=
  (Nat.mul_lt_mul_left hi).mpr h

theorem natOneLeMul {i c : ℕ} (hi : 1 ≤ i) : 1 ≤ i * (c + 1) :=
  Nat.mul_pos (by omega) (Nat.succ_pos c)

theorem markFoldAux_rads (i : ℕ) (hi : 1 ≤ i) :
    ∀ (c : ℕ) (s : RadState) (m : ℕ),
      ((List.range c).foldl (fun t k => innerStep i (i * (k + 1)) t) s).rads m
        = if i ∣ m ∧ 1 ≤ m ∧ m ≤ i * c then s.rads m * i else s.rads m := by
  intro c
  induction c with
  | zero =>
    intro s m
    rw [if_neg (by omega)]
    rfl
  | succ c ih =>
    intro s m
    rw [List.range_succ, List.foldl_append, List.foldl_cons, List.foldl_nil]
    rw [show ∀ t, (innerStep i (i * (c + 1)) t).rads
        = Function.update t.rads (i * (c + 1)) (t.rads (i * (c + 1)) * i)
      from fun _ => rfl]
    by_cases hm : m = i * (c + 1)
    · subst hm
      rw [Function.update_same, ih]
      rw [if_neg (by
        rintro ⟨-, -, hle⟩
        have : i * c < i * (c + 1) :=
          natMulLtMulLeft (show 0 < i by omega) (Nat.lt_succ_self c)
        omega)]
      rw [if_pos ⟨Dvd.intro (c + 1) rfl, natOneLeMul hi, le_rfl⟩]
    · rw [Function.update_noteq hm, ih]
      by_cases hcond : i ∣ m ∧ 1 ≤ m ∧ m ≤ i * c
      · rw [if_pos hcond, if_pos ⟨hcond.1, hcond.2.1, by
          have := hcond.2.2
          have : i * c ≤ i * (c + 1) := Nat.mul_le_mul_left i (by omega)
          omega⟩]
      · rw [if_neg hcond, if_neg (by
          rintro ⟨hdvd, hm1, hle⟩
          refine hcond ⟨hdvd, hm1, ?_⟩
          obtain ⟨t, rfl⟩ := hdvd
          have ht : t ≤ c + 1 := by
            by_contra hgt
            have : i * (c + 2) ≤ i * t := Nat.mul_le_mul_left i (by omega)
            have : i * (c + 1) < i * (c + 2) :=
              natMulLtMulLeft (show 0 < i by omega) (Nat.lt_succ_self (c + 1))
            omega
          have htne : t ≠ c + 1 := fun hteq => hm (by rw [hteq])
          exact Nat.mul_le_mul_left i (by omega))]

theorem markFoldAux_isp (i : ℕ) (hi : 1 ≤ i) :
    ∀ (c : ℕ) (s : RadState) (m : ℕ),
      ((List.range c).foldl (fun t k => innerStep i (i * (k + 1)) t) s).isp m
        = if i ∣ m ∧ 1 ≤ m ∧ m ≤ i * c ∧ m ≠ i then false else s.isp m := by
  intro c
  induction c with
  | zero =>
    intro s m
    rw [if_neg (by omega)]
    rfl
  | succ c ih =>
    intro s m
    rw [List.range_succ, List.foldl_append, List.foldl_cons, List.foldl_nil]
    rw [show ∀ t, (innerStep i (i * (c + 1)) t).isp
        = if i * (c + 1) = i then t.isp
          else Function.update t.isp (i * (c + 1)) false
      from fun _ => rfl]
    by_cases hji : i * (c + 1) = i
    · rw [if_pos hji, ih]
      have hc0 : c = 0 := by
        by_contra hc
        have h2le : i * 2 ≤ i * (c + 1) := Nat.mul_le_mul_left i (by omega)
        omega
      subst hc0
      rw [if_neg (by rintro ⟨-, hm1, hle, -⟩; omega),
        if_neg (by
          rintro ⟨⟨t, rfl⟩, hm1, hle, hne⟩
          have ht1 : t = 1 := by
            rcases Nat.eq_zero_or_pos t with rfl | ht
            · simp at hm1
            · by_contra hne1
              have h2t : i * 2 ≤ i * t := Nat.mul_le_mul_left i (by omega)
              have hle1 : i * (0 + 1) = i := by ring
              omega
          subst ht1
          exact hne (by ring))]
    · rw [if_neg hji]
      by_cases hm : m = i * (c + 1)
      · subst hm
        rw [Function.update_same,
          if_pos ⟨Dvd.intro (c + 1) rfl, natOneLeMul hi, le_rfl, hji⟩]
      · rw [Function.update_noteq hm, ih]
        by_cases hcond : i ∣ m ∧ 1 ≤ m ∧ m ≤ i * c ∧ m ≠ i
        · rw [if_pos hcond, if_pos ⟨hcond.1, hcond.2.1, by
            have := hcond.2.2.1
            have : i * c ≤ i * (c + 1) := Nat.mul_le_mul_left i (by omega)
            omega, hcond.2.2.2⟩]
        · rw [if_neg hcond, if_neg (by
            rintro ⟨hdvd, hm1, hle, hne⟩
            refine hcond ⟨hdvd, hm1, ?_, hne⟩
            obtain ⟨t, rfl⟩ := hdvd
            have ht : t ≤ c + 1 := by
              by_contra hgt
              have : i * (c + 2) ≤ i * t := Nat.mul_le_mul_left i (by omega)
              have : i * (c + 1) < i * (c + 2) :=
                natMulLtMulLeft (show 0 < i by omega) (Nat.lt_succ_self (c + 1))
              omega
            have htne : t ≠ c + 1 := fun hteq => hm (by rw [hteq])
            exact Nat.mul_le_mul_left i (by omega))]

theorem le_mul_div_iff_of_dvd {i m limit : ℕ} (hi : 0 < i) (hdvd : i ∣ m) :
    m ≤ i * (limit / i) ↔ m ≤ limit := by
  constructor
  · intro h
    calc m ≤ i * (limit / i) := h
      _ = limit / i * i := Nat.mul_comm _ _
      _ ≤ limit := Nat.div_mul_le_self limit i
  · intro h
    obtain ⟨t, rfl⟩ := hdvd
    have hcomm : t * i = i * t := Nat.mul_comm t i
    have ht : t ≤ limit / i := (Nat.le_div_iff_mul_le hi).2 (by omega)
    exact Nat.mul_le_mul_left i ht

theorem filter_lt_succ_of_mem {m i : ℕ} (him : i ∈ m.primeFactors) :
    m.primeFactors.filter (fun p => p < i + 1)
      = insert i (m.primeFactors.filter (fun p => p < i)) := by
  ext p
  simp only [Finset.mem_filter, Finset.mem_insert]
  constructor
  · rintro ⟨hpm, hlt⟩
    rcases Nat.lt_succ_iff_lt_or_eq.1 hlt with h | h
    · exact Or.inr ⟨hpm, h⟩
    · exact Or.inl h
  · rintro (rfl | ⟨hpm, hlt⟩)
    · exact ⟨him, Nat.lt_succ_self _⟩
    · exact ⟨hpm, by omega⟩

theorem filter_lt_succ_of_not_mem {m i : ℕ} (him : i ∉ m.primeFactors) :
    m.primeFactors.filter (fun p => p < i + 1)
      = m.primeFactors.filter (fun p => p < i) := by
  ext p
  simp only [Finset.mem_filter]
  constructor
  · rintro ⟨hpm, hlt⟩
    refine ⟨hpm, ?_⟩
    rcases Nat.lt_succ_iff_lt_or_eq.1 hlt with h | rfl
    · exact h
    · exact absurd hpm him
  · rintro ⟨hpm, hlt⟩
    exact ⟨hpm, by omega⟩

/-- The invariant carried by the outer loop of `sieve_radicals`: before
processing index `i`, an entry `m ≤ limit` is still flagged prime iff `m ≥ 2`
and no prime below `i` divides it properly, and its radical entry holds the
product of its prime factors below `i`. -/
def SieveInv (limit i : ℕ) (s : RadState) : Prop :=
  (∀ m, m ≤ limit →
    (s.isp m = true ↔ 2 ≤ m ∧ ∀ p : ℕ, p.Prime → p < i → p ∣ m → p = m)) ∧
  (∀ m, m ≤ limit →
    s.rads m = ∏ p ∈ m.primeFactors.filter (fun p => p < i), p)

theorem sieveInv_init (limit : ℕ) : SieveInv limit 2 initState := by
  constructor
  · intro m _
    simp only [initState, decide_eq_true_eq]
    constructor
    · intro h
      exact ⟨h, fun p hp hlt _ => absurd hp.two_le (by omega)⟩
    · exact fun h => h.1
  · intro m _
    simp only [initState]
    rw [Finset.filter_false_of_mem, Finset.prod_empty]
    intro p hp
    have := (Nat.prime_of_mem_primeFactors hp).two_le
    omega

theorem sieveStep_inv {limit i : ℕ} {s : RadState} (hi : 2 ≤ i)
    (hil : i ≤ limit) (h : SieveInv limit i s) :
    SieveInv limit (i + 1) (sieveStep limit s i) := by
  obtain ⟨ha, hb⟩ := h
  by_cases hisp : s.isp i = true
  · -- `i` survived: it is prime and its multiples get marked.
    have hPi := (ha i hil).1 hisp
    have hiprime : i.Prime := by
      obtain ⟨p0, hp0, hp0d⟩ := Nat.exists_prime_and_dvd (show i ≠ 1 by omega)
      have hle : p0 ≤ i := Nat.le_of_dvd (by omega) hp0d
      rcases Nat.lt_or_ge p0 i with hlt | hge
      · exact absurd (hPi.2 p0 hp0 hlt hp0d) (by omega)
      · have : p0 = i := by omega
        exact this ▸ hp0
    rw [sieveStep, if_pos hisp]
    constructor
    · intro m hm
      rw [markMultiples, markFoldAux_isp i (by omega) (limit / i) s m]
      by_cases hcond : i ∣ m ∧ 1 ≤ m ∧ m ≤ i * (limit / i) ∧ m ≠ i
      · simp only [if_pos hcond]
        constructor
        · intro hfalse
          exact absurd hfalse (by simp)
        · rintro ⟨h2m, hP⟩
          exact absurd (hP i hiprime (Nat.lt_succ_self i) hcond.1).symm
            hcond.2.2.2
      · simp only [if_neg hcond]
        rw [ha m hm]
        constructor
        · rintro ⟨h2m, hP⟩
          refine ⟨h2m, fun p hp hlt hpdvd => ?_⟩
          rcases Nat.lt_succ_iff_lt_or_eq.1 hlt with hlt' | rfl
          · exact hP p hp hlt' hpdvd
          · by_contra hne
            refine hcond ⟨hpdvd, by omega,
              (le_mul_div_iff_of_dvd (by omega) hpdvd).2 hm, fun hmi => ?_⟩
            exact hne (hmi ▸ rfl)
        · rintro ⟨h2m, hP⟩
          exact ⟨h2m, fun p hp hlt hpdvd => hP p hp (by omega) hpdvd⟩
    · intro m hm
      rw [markMultiples, markFoldAux_rads i (by omega) (limit / i) s m]
      by_cases hm0 : m = 0
      · subst hm0
        rw [if_neg (by omega), hb 0 hm]
        simp
      · by_cases hdvd : i ∣ m
        · rw [if_pos ⟨hdvd, by omega,
            (le_mul_div_iff_of_dvd (by omega) hdvd).2 hm⟩, hb m hm]
          have him : i ∈ m.primeFactors :=
            Nat.mem_primeFactors.2 ⟨hiprime, hdvd, hm0⟩
          rw [filter_lt_succ_of_mem him, Finset.prod_insert (by simp),
            Nat.mul_comm i _]
        · rw [if_neg (by rintro ⟨hd, -, -⟩; exact hdvd hd), hb m hm,
            filter_lt_succ_of_not_mem (fun hmem =>
              hdvd (Nat.dvd_of_mem_primeFactors hmem))]
  · -- `i` was already marked composite: it is not prime, nothing changes.
    have hinotprime : ¬ i.Prime := by
      intro hip
      refine hisp ((ha i hil).2 ⟨hi, fun p hp hlt hpdvd => ?_⟩)
      rcases (Nat.Prime.eq_one_or_self_of_dvd hip p hpdvd) with h1 | h1
      · exact absurd h1 hp.ne_one
      · exact h1
    rw [sieveStep, if_neg hisp]
    constructor
    · intro m hm
      rw [ha m hm]
      constructor
      · rintro ⟨h2m, hP⟩
        refine ⟨h2m, fun p hp hlt hpdvd => ?_⟩
        rcases Nat.lt_succ_iff_lt_or_eq.1 hlt with hlt' | rfl
        · exact hP p hp hlt' hpdvd
        · exact absurd hp hinotprime
      · rintro ⟨h2m, hP⟩
        exact ⟨h2m, fun p hp hlt hpdvd => hP p hp (by omega) hpdvd⟩
    · intro m hm
      rw [hb m hm, filter_lt_succ_of_not_mem (fun hmem =>
        hinotprime (Nat.prime_of_mem_primeFactors hmem))]

theorem sieveLoop_inv_aux (limit : ℕ) :
    ∀ (n i : ℕ) (s : RadState), 2 ≤ i → i + n = limit + 1 → SieveInv limit i s →
      SieveInv limit (limit + 1) ((List.range' i n).foldl (sieveStep limit) s) := by
  intro n
  induction n with
  | zero =>
    intro i s h2 hsum hinv
    have : i = limit + 1 := by omega
    subst this
    simpa using hinv
  | succ n ih =>
    intro i s h2 hsum hinv
    rw [show List.range' i (n + 1) = i :: List.range' (i + 1) n from rfl,
      List.foldl_cons]
    exact ih (i + 1) _ (by omega) (by omega)
      (sieveStep_inv h2 (by omega) hinv)

theorem sieveLoop_inv (limit : ℕ) : SieveInv limit (limit + 1) (sieveLoop limit) := by
  rcases Nat.lt_or_ge limit 2 with hsmall | hbig
  · have h0 : limit - 1 = 0 := by omega
    rw [sieveLoop, h0]
    constructor
    · intro m hm
      simp only [List.range', List.foldl_nil, initState, decide_eq_true_eq]
      constructor
      · intro h2m
        exact absurd h2m (by omega)
      · rintro ⟨h2m, -⟩
        omega
    · intro m hm
      simp only [List.range', List.foldl_nil, initState]
      rw [Finset.filter_false_of_mem, Finset.prod_empty]
      intro p hp
      have h1 := (Nat.prime_of_mem_primeFactors hp).two_le
      have h2 := Nat.le_of_mem_primeFactors hp
      omega
  · have h := sieveLoop_inv_aux limit (limit - 1) 2 initState le_rfl (by omega)
      (sieveInv_init limit)
    rw [sieveLoop]
    exact h

/-- The radical table built by `sieve_radicals` holds exactly the radical on
`[0, limit]`. -/
theorem sieve_rads_eq {limit n : ℕ} (h : n ≤ limit) :
    (sieveLoop limit).rads n = radical n := by
  rw [(sieveLoop_inv limit).2 n h, radical]
  congr 1
  apply Finset.filter_true_of_mem
  intro p hp
  have h1 := Nat.le_of_mem_primeFactors hp
  omega

/-- The `is_prime` flags left by `sieve_radicals` are exact on `[0, limit]`. -/
theorem sieve_isp_iff {limit n : ℕ} (h : n ≤ limit) :
    (sieveLoop limit).isp n = true ↔ n.Prime := by
  rw [(sieveLoop_inv limit).1 n h]
  constructor
  · rintro ⟨h2, hP⟩
    obtain ⟨p0, hp0, hp0d⟩ := Nat.exists_prime_and_dvd (show n ≠ 1 by omega)
    have hle : p0 ≤ n := Nat.le_of_dvd (by omega) hp0d
    rcases Nat.lt_or_ge p0 n with hlt | hge
    · exact absurd (hP p0 hp0 (by omega) hp0d) (by omega)
    · have : p0 = n := by omega
      exact this ▸ hp0
  · intro hp
    refine ⟨hp.two_le, fun p hpp hlt hdvd => ?_⟩
    rcases hp.eq_one_or_self_of_dvd p hdvd with h1 | h1
    · exact absurd h1 hpp.ne_one
    · exact h1

/-- Membership in the `primes_set` returned by `sieve_radicals`. -/
theorem mem_sieve_primes {limit p : ℕ} :
    p ∈ (sieve_radicals limit).2 ↔ p.Prime ∧ p ≤ limit := by
  show p ∈ (List.range' 2 (limit - 1)).filter (fun i => (sieveLoop limit).isp i)
    ↔ p.Prime ∧ p ≤ limit
  rw [List.mem_filter, List.mem_range'_1]
  constructor
  · rintro ⟨⟨h2, hlt⟩, hisp⟩
    have hple : p ≤ limit := by omega
    exact ⟨(sieve_isp_iff hple).1 hisp, hple⟩
  · rintro ⟨hp, hple⟩
    have h2 := hp.two_le
    refine ⟨⟨h2, by omega⟩, (sieve_isp_iff hple).2 hp⟩

/-- `odd_rad` from `goldbach_rigid_scan.py` lines 35-40: look up the radical
table, halve while even, return the result (or 1 if it vanished). -/
def odd_rad (x : ℕ) (rads : ℕ → ℕ) : ℕ :=
  let r := stripFactor 2 (rads x)
  if 0 < r then r else 1

theorem odd_rad_pos (x : ℕ) (rads : ℕ → ℕ) : 0 < odd_rad x rads := by
  rw [odd_rad]
  split
  · assumption
  · exact Nat.one_pos

/-- Stripping the 2s from a radical yields the odd radical. -/
theorem stripFactor_two_radical (n : ℕ) :
    stripFactor 2 (radical n) = oddRadMath n := by
  have hrad0 : radical n ≠ 0 := (radical_pos n).ne'
  have hpf : (radical n).primeFactors = n.primeFactors :=
    Nat.primeFactors_prod (fun p hp => Nat.prime_of_mem_primeFactors hp)
  by_cases h2 : 2 ∈ n.primeFactors
  · have hsplit : radical n = 2 * ∏ p ∈ n.primeFactors.erase 2, p := by
      rw [radical, ← Finset.mul_prod_erase _ _ h2]
    have hodd : ¬ (2 : ℕ) ∣ ∏ p ∈ n.primeFactors.erase 2, p := by
      intro hdvd
      obtain ⟨q, hq, hq2⟩ :=
        (Nat.Prime.prime Nat.prime_two).exists_mem_finset_dvd hdvd
      have hqp := Nat.prime_of_mem_primeFactors (Finset.mem_of_mem_erase hq)
      have : (2 : ℕ) = q := ((Nat.prime_dvd_prime_iff_eq Nat.prime_two hqp).1 hq2)
      exact (Finset.ne_of_mem_erase hq) this.symm
    rw [hsplit, stripFactor_unfold, if_pos ⟨le_rfl, by
        intro hzero
        exact absurd (hsplit ▸ hzero) hrad0, by omega⟩]
    rw [Nat.mul_div_cancel_left _ (by omega)]
    rw [stripFactor_eq_self hodd, oddRadMath]
  · have heq : n.primeFactors.erase 2 = n.primeFactors := Finset.erase_eq_of_not_mem h2
    have hodd : ¬ (2 : ℕ) ∣ radical n := by
      intro hdvd
      obtain ⟨q, hq, hq2⟩ :=
        (Nat.Prime.prime Nat.prime_two).exists_mem_finset_dvd hdvd
      have hqp := Nat.prime_of_mem_primeFactors hq
      have : (2 : ℕ) = q := ((Nat.prime_dvd_prime_iff_eq Nat.prime_two hqp).1 hq2)
      exact h2 (this ▸ hq)
    rw [stripFactor_eq_self hodd, oddRadMath, radical, heq]

/-- When the table entry is the true radical, `odd_rad` computes the odd
radical. -/
theorem odd_rad_eq_oddRadMath {x : ℕ} {rads : ℕ → ℕ}
    (hx : rads x = radical x) : odd_rad x rads = oddRadMath x := by
  rw [odd_rad, hx, stripFactor_two_radical]
  rw [if_pos (oddRadMath_pos x)]

/-- Decomposition categories (`goldbach_rigid_scan.py` lines 61-69,
`export_data.py` lines 41-43). -/
inductive Category where
  | Goldbach
  | Mixed
  | Composite
deriving DecidableEq, Repr

/-- One row of `scan_N` (`goldbach_rigid_scan.py` lines 71-77).  The source
dict also stores `rho`; `rho` is the fixed function `rowRho` of `cond` and
`N` (line 59), kept out of the record so rows stay decidably comparable. -/
structure Row where
  p : ℕ
  q : ℕ
  rp : ℕ
  rq : ℕ
  cond : ℕ
  cat : Category
deriving DecidableEq, Repr

/-- The iteration space `range(3, N // 2 + 1)` of `scan_N` (line 47), over
`ℤ` as in Python (`//` is floor division). -/
def pRangeZ (N : ℤ) : List ℤ :=
  (List.range (N.fdiv 2 + 1 - 3).toNat).map (fun t : ℕ => (3 : ℤ) + (t : ℤ))

/-- Loop body of `scan_N` (`goldbach_rigid_scan.py` lines 48-77): skip when
`q = N - p ≤ 1`, otherwise build the row.  All indices passed to `odd_rad`
are positive here, so the `ℕ`-valued lookups match Python's. -/
def scanRow (N : ℤ) (rads : ℕ → ℕ) (primes : List ℕ) (p : ℤ) : Option Row :=
  let q := N - p
  if q ≤ 1 then none
  else
    let rp := odd_rad p.toNat rads
    let rq := odd_rad q.toNat rads
    let rM := odd_rad (N.fdiv 2).toNat rads
    let base := rp * rq * rM * rM
    let cond := base * base
    let cat :=
      if p.toNat ∈ primes ∧ q.toNat ∈ primes then Category.Goldbach
      else if p.toNat ∈ primes ∨ q.toNat ∈ primes then Category.Mixed
      else Category.Composite
    some { p := p.toNat, q := q.toNat, rp := rp, rq := rq,
           cond := cond, cat := cat }

/-- `scan_N` (`goldbach_rigid_scan.py` lines 44-78). -/
def scan_N (N : ℤ) (rads : ℕ → ℕ) (primes : List ℕ) : List Row :=
  (pRangeZ N).filterMap (scanRow N rads primes)

/-- The indices at which `scan_N` reads the `rads` array: `p`, `q` and
`N // 2` for every non-skipped iteration (lines 52-54).  A sieve built to
`limit` raises `IndexError`/`RangeError` iff one of these exceeds `limit`. -/
def scanQueries (N : ℤ) : List ℤ :=
  (pRangeZ N).bind (fun p => if N - p ≤ 1 then [] else [p, N - p, N.fdiv 2])

/-- Chen's ratio ρ of a row (`goldbach_rigid_scan.py` line 59,
`export_data.py` line 40): `log(cond)/log(N)` when `cond > 1`, else `0.0`;
floating point is modelled over `ℝ`. -/
noncomputable def rowRho (N : ℤ) (r : Row) : ℝ :=
  if 1 < r.cond then Real.log (r.cond : ℝ) / Real.log (N : ℝ) else 0

theorem mem_pRangeZ {N p : ℤ} : p ∈ pRangeZ N ↔ 3 ≤ p ∧ p ≤ N.fdiv 2 := by
  rw [pRangeZ, List.mem_map]
  constructor
  · rintro ⟨t, ht, rfl⟩
    rw [List.mem_range] at ht
    omega
  · rintro ⟨h3, hM⟩
    refine ⟨(p - 3).toNat, ?_, by omega⟩
    rw [List.mem_range]
    omega

theorem scan_mem_spec {N : ℤ} {rads : ℕ → ℕ} {primes : List ℕ} {row : Row}
    (h : row ∈ scan_N N rads primes) :
    ∃ p : ℤ, 3 ≤ p ∧ p ≤ N.fdiv 2 ∧ 2 ≤ N - p ∧
      row.p = p.toNat ∧ row.q = (N - p).toNat ∧
      row.rp = odd_rad p.toNat rads ∧
      row.rq = odd_rad (N - p).toNat rads ∧
      row.cond = (row.rp * row.rq * odd_rad (N.fdiv 2).toNat rads *
          odd_rad (N.fdiv 2).toNat rads) *
        (row.rp * row.rq * odd_rad (N.fdiv 2).toNat rads *
          odd_rad (N.fdiv 2).toNat rads) ∧
      row.cat = (if p.toNat ∈ primes ∧ (N - p).toNat ∈ primes
          then Category.Goldbach
        else if p.toNat ∈ primes ∨ (N - p).toNat ∈ primes then Category.Mixed
        else Category.Composite) := by
  rw [scan_N, List.mem_filterMap] at h
  obtain ⟨p, hp, heq⟩ := h
  rw [mem_pRangeZ] at hp
  simp only [scanRow] at heq
  by_cases hq : N - p ≤ 1
  · rw [if_pos hq] at heq
    exact absurd heq (by simp)
  · rw [if_neg hq] at heq
    have hrow := (Option.some.inj heq).symm
    subst hrow
    exact ⟨p, hp.1, hp.2, by omega, rfl, rfl, rfl, rfl, rfl, rfl⟩

theorem scan_mem_N_ge {N : ℤ} {rads : ℕ → ℕ} {primes : List ℕ} {row : Row}
    (h : row ∈ scan_N N rads primes) : 5 ≤ N := by
  obtain ⟨p, h3, -, hq, -⟩ := scan_mem_spec h
  omega

/-- `sieve` from `export_data.py` lines 7-13: boolean Eratosthenes sieve over
`[0, limit]`; for each surviving `i ≤ isqrt(limit)` the slice
`is_prime[i*i::i]` is zeroed.  The slice has `(limit - i*i) / i + 1` entries
whenever `i*i ≤ limit`, which holds throughout the loop. -/
def sieve (limit : ℕ) : ℕ → Bool :=
  (List.range' 2 (Nat.sqrt limit - 1)).foldl
    (fun isp i =>
      if isp i then
        (List.range ((limit - i * i) / i + 1)).foldl
          (fun t k => Function.update t (i * i + i * k) false) isp
      else isp)
    (fun m => decide (2 ≤ m))

/-- One row of the single-N scan of `export_data.py` (line 44):
`[N, p, q, typ, rp, rq, cond, rho]`, with `rho` again the fixed function of
`cond` and `N` (line 40) kept outside the record. -/
structure ERow where
  N : ℕ
  p : ℕ
  q : ℕ
  typ : Category
  rp : ℕ
  rq : ℕ
  cond : ℕ
deriving DecidableEq, Repr

/-- The iteration space `range(3, N // 2 + 1)` of the export scan
(`export_data.py` line 34), over `ℕ` (the script only uses `N = 1024` and
`N = 2^k`). -/
def pRangeN (N : ℕ) : List ℕ :=
  (List.range (N / 2 + 1 - 3)).map (fun t => 3 + t)

/-- Loop body of the export scan (`export_data.py` lines 34-44): product
conductor `(rp*rq)^2` and classification by the `is_prime` bytearray. -/
def exportRow (N : ℕ) (isp : ℕ → Bool) (p : ℕ) : Option ERow :=
  let q := N - p
  if q ≤ 1 then none
  else
    let rp := odd_radical p
    let rq := odd_radical q
    let cond := (rp * rq) ^ 2
    let typ :=
      if isp p && isp q then Category.Goldbach
      else if !isp p && !isp q then Category.Composite
      else Category.Mixed
    some { N := N, p := p, q := q, typ := typ, rp := rp, rq := rq, cond := cond }

/-- The single-N scan loop of `export_data.py` (lines 33-44). -/
def exportScan (N : ℕ) (isp : ℕ → Bool) : List ERow :=
  (pRangeN N).filterMap (exportRow N isp)

/-- `scan_N` applied to the tables of `sieve_radicals limit`, as done at
`goldbach_rigid_scan.py` lines 89-90 and 219. -/
def scanOf (limit : ℕ) (N : ℤ) : List Row :=
  scan_N N (sieve_radicals limit).1 (sieve_radicals limit).2

/-- Category partition of the scan rows (`goldbach_rigid_scan.py` lines
93-95 and 220-221). -/
def catRows (limit : ℕ) (N : ℤ) (c : Category) : List Row :=
  (scanOf limit N).filter (fun r => decide (r.cat = c))

/-- `gb_rhos` (`goldbach_rigid_scan.py` line 114 and the series loop line
220): ALL Goldbach ρ values, with no ρ > 0 filter.  (At lines 97-98 the
single-N report sorts `gb`/`comp` by ρ before this extraction; sorting
permutes the list and is dropped here, leaving every min/max/mean/bandwidth
aggregate unchanged.) -/
noncomputable def gb_rhosOf (limit : ℕ) (N : ℤ) : List ℝ :=
  (catRows limit N Category.Goldbach).map (rowRho N)

/-- `mix_rhos` (line 115): Mixed ρ values filtered to ρ > 0. -/
noncomputable def mix_rhosOf (limit : ℕ) (N : ℤ) : List ℝ :=
  ((catRows limit N Category.Mixed).filter
    (fun r => decide (0 < rowRho N r))).map (rowRho N)

/-- `comp_rhos` (line 116 and series loop line 221): Composite ρ values
filtered to ρ > 0. -/
noncomputable def comp_rhosOf (limit : ℕ) (N : ℤ) : List ℝ :=
  ((catRows limit N Category.Composite).filter
    (fun r => decide (0 < rowRho N r))).map (rowRho N)

/-- The spec's aggregation domain: a category's members restricted to
ρ > 0, their ρ values. -/
noncomputable def specRhosOf (limit : ℕ) (N : ℤ) (c : Category) : List ℝ :=
  ((catRows limit N c).filter (fun r => decide (0 < rowRho N r))).map (rowRho N)

/-- Python `max` over a nonempty list (0 on `[]`, where Python raises). -/
noncomputable def pymax : List ℝ → ℝ
  | [] => 0
  | a :: t => t.foldl max a

/-- Python `min` over a nonempty list (0 on `[]`, where Python raises). -/
noncomputable def pymin : List ℝ → ℝ
  | [] => 0
  | a :: t => t.foldl min a

/-- `np.mean`: arithmetic mean. -/
noncomputable def pymean (l : List ℝ) : ℝ := l.sum / l.length

/-- A Python float that is either finite or the `float('inf')` sentinel. -/
inductive RatioVal where
  | val (x : ℝ)
  | inf

/-- The bandwidth-ratio expression of `export_data.py` line 71:
`bw_comp / bw_gb if bw_gb > 0 else 0`. -/
noncomputable def ratioExport (bw_gb bw_comp : ℝ) : ℝ :=
  if bw_gb > 0 then bw_comp / bw_gb else 0

/-- The bandwidth-ratio expression of `goldbach_rigid_scan.py` line 225:
`bw_comp / bw_gb if bw_gb > 0 else float('inf')`. -/
noncomputable def ratioScan (bw_gb bw_comp : ℝ) : RatioVal :=
  if bw_gb > 0 then RatioVal.val (bw_comp / bw_gb) else RatioVal.inf

theorem sieve_radicals_fst (limit : ℕ) :
    (sieve_radicals limit).1 = (sieveLoop limit).rads := rfl

theorem oddRadMath_odd_prime {p : ℕ} (hp : p.Prime) (hne : p ≠ 2) :
    oddRadMath p = p := by
  rw [oddRadMath, hp.primeFactors, Finset.erase_eq_of_not_mem (by
    rw [Finset.mem_singleton]
    exact fun h => hne h.symm), Finset.prod_singleton]

theorem ite_cat_eq_goldbach {c1 c2 : Prop} [Decidable c1] [Decidable c2]
    (h : (if c1 then Category.Goldbach
      else if c2 then Category.Mixed else Category.Composite)
        = Category.Goldbach) : c1 := by
  by_cases h1 : c1
  · exact h1
  · rw [if_neg h1] at h
    by_cases h2 : c2
    · rw [if_pos h2] at h
      exact absurd h (by simp)
    · rw [if_neg h2] at h
      exact absurd h (by simp)

/-- Every row that `scan_N` (over a `sieve_radicals` table) classifies as
Goldbach pairs two odd primes within the sieve range, so its odd radicals are
the primes themselves and its conductor proxy is at least 81. -/
theorem goldbach_row_facts {limit : ℕ} {N : ℤ} {r : Row}
    (hmem : r ∈ scanOf limit N) (hcat : r.cat = Category.Goldbach) :
    r.p.Prime ∧ r.q.Prime ∧ 3 ≤ r.rp ∧ 3 ≤ r.rq ∧ 81 ≤ r.cond := by
  obtain ⟨p, h3, hhalf, hq2, hP, hQ, hRP, hRQ, hCOND, hCAT⟩ :=
    scan_mem_spec hmem
  have hN5 : 5 ≤ N := scan_mem_N_ge hmem
  have hfd : N.fdiv 2 = N / 2 := Int.fdiv_eq_ediv N (by norm_num)
  have hq3 : 3 ≤ N - p := by omega
  have hc1 := ite_cat_eq_goldbach (hCAT ▸ hcat)
  simp only [mem_sieve_primes] at hc1
  obtain ⟨⟨hpprime, hple⟩, hqprime, hqle⟩ := hc1
  have hpn3 : 3 ≤ p.toNat := by omega
  have hqn3 : 3 ≤ (N - p).toNat := by omega
  have hrp : r.rp = p.toNat := by
    rw [hRP, sieve_radicals_fst,
      odd_rad_eq_oddRadMath (sieve_rads_eq hple),
      oddRadMath_odd_prime hpprime (by omega)]
  have hrq : r.rq = (N - p).toNat := by
    rw [hRQ, sieve_radicals_fst,
      odd_rad_eq_oddRadMath (sieve_rads_eq hqle),
      oddRadMath_odd_prime hqprime (by omega)]
  have hrp3 : 3 ≤ r.rp := by omega
  have hrq3 : 3 ≤ r.rq := by omega
  refine ⟨hP ▸ hpprime, hQ ▸ hqprime, hrp3, hrq3, ?_⟩
  rw [hCOND]
  have hrm : 1 ≤ odd_rad (N.fdiv 2).toNat (sieve_radicals limit).1 :=
    odd_rad_pos _ _
  have h9 : 9 ≤ r.rp * r.rq := Nat.mul_le_mul hrp3 hrq3
  have hbase : 9 ≤ r.rp * r.rq * odd_rad (N.fdiv 2).toNat (sieve_radicals limit).1 *
      odd_rad (N.fdiv 2).toNat (sieve_radicals limit).1 := by
    calc (9 : ℕ) = 9 * 1 * 1 := by ring
      _ ≤ r.rp * r.rq * odd_rad (N.fdiv 2).toNat (sieve_radicals limit).1 *
          odd_rad (N.fdiv 2).toNat (sieve_radicals limit).1 :=
        Nat.mul_le_mul (Nat.mul_le_mul h9 hrm) hrm
  calc (81 : ℕ) = 9 * 9 := by norm_num
    _ ≤ _ := Nat.mul_le_mul hbase hbase

theorem rowRho_pos {N : ℤ} {r : Row} (hc : 1 < r.cond) (hN : 2 ≤ N) :
    0 < rowRho N r := by
  rw [rowRho, if_pos hc]
  apply div_pos
  · apply Real.log_pos
    exact_mod_cast hc
  · apply Real.log_pos
    exact_mod_cast (by omega : (1 : ℤ) < N)

theorem rowRho_nonneg {N : ℤ} {r : Row} (hN : 2 ≤ N) : 0 ≤ rowRho N r := by
  by_cases hc : 1 < r.cond
  · exact le_of_lt (rowRho_pos hc hN)
  · rw [rowRho, if_neg hc]

theorem rowRho_eq_zero_iff {N : ℤ} {r : Row} (hN : 2 ≤ N) :
    rowRho N r = 0 ↔ r.cond ≤ 1 := by
  by_cases hc : 1 < r.cond
  · constructor
    · intro h0
      exact absurd h0 (ne_of_gt (rowRho_pos hc hN))
    · intro hle
      omega
  · constructor
    · intro _
      omega
    · intro _
      rw [rowRho, if_neg hc]

/-- Every Goldbach row of a `scan_N` over `sieve_radicals` tables has ρ > 0,
so the ρ > 0 filter is the identity on the Goldbach class. -/
theorem goldbach_rho_pos {limit : ℕ} {N : ℤ} {r : Row}
    (hmem : r ∈ scanOf limit N) (hcat : r.cat = Category.Goldbach) :
    0 < rowRho N r := by
  have h81 := (goldbach_row_facts hmem hcat).2.2.2.2
  exact rowRho_pos (by omega) (by have := scan_mem_N_ge hmem; omega)

theorem goldbach_filter_eq (limit : ℕ) (N : ℤ) :
    (catRows limit N Category.Goldbach).filter
        (fun r => decide (0 < rowRho N r))
      = catRows limit N Category.Goldbach := by
  apply List.filter_eq_self.2
  intro r hr
  rw [decide_eq_true_eq]
  have hmem : r ∈ scanOf limit N := List.mem_of_mem_filter hr
  have hcat : r.cat = Category.Goldbach := by
    have := List.of_mem_filter hr
    simpa using this
  exact goldbach_rho_pos hmem hcat

/-- C1: at the failing input (Goldbach bandwidth 0, Composite bandwidth 1),
the 2^k-series loop of `goldbach_rigid_scan.py` reports the explicit
`float('inf')` sentinel the spec requires, but `export_data.py`'s series
loop silently coerces the same ratio to 0. -/
theorem c1_ratio_sentinel_divergence :
    ratioExport 0 1 = 0 ∧ ratioScan 0 1 = RatioVal.inf := by
  constructor
  · rw [ratioExport, if_neg (by norm_num)]
  · rw [ratioScan, if_neg (by norm_num)]

/-- C2 counterexample: at N = 0 and at N = -2, `scan_N` returns the empty
sequence instead of failing with `InvalidArgument` — no validation exists in
the code, refuting the claim that the scan fails rather than returning a
(possibly empty) sequence. -/
theorem c2_counterexample :
    scan_N 0 (fun _ => 1) [] = [] ∧ scan_N (-2) (fun _ => 1) [] = [] := by
  constructor <;> decide

/-- C2 (amended): for every N ≤ 0 (and any sieve tables), `scan_N` returns
the empty sequence; its iteration range `range(3, N // 2 + 1)` is empty, and
no `InvalidArgument` error path exists. -/
theorem c2_amended_scan_nonpos_empty (N : ℤ) (rads : ℕ → ℕ)
    (primes : List ℕ) (h : N ≤ 0) : scan_N N rads primes = [] := by
  have hfd : N.fdiv 2 = N / 2 := Int.fdiv_eq_ediv N (by norm_num)
  have hempty : pRangeZ N = [] := by
    rw [pRangeZ]
    have h0 : (N.fdiv 2 + 1 - 3).toNat = 0 := by omega
    rw [h0]
    rfl
  rw [scan_N, hempty]
  rfl

/-- C2 witness at N = -4. -/
theorem c2_witness : (-4 : ℤ) ≤ 0 ∧ scan_N (-4) (fun _ => 1) [] = [] :=
  ⟨by norm_num, c2_amended_scan_nonpos_empty (-4) (fun _ => 1) [] (by norm_num)⟩

/-- C3 counterexample: N = 8 is even and ≥ 6 and limit = 4 = N/2 satisfies
the claim's precondition, yet the scan queries the radical table at index
5 > 4 (for p = 3, q = N - p = 5), so the out-of-bounds branch is reachable
with limit = N/2. -/
theorem c3_counterexample :
    (8 : ℤ) % 2 = 0 ∧ (6 : ℤ) ≤ 8 ∧ (4 : ℤ) = Int.fdiv 8 2 ∧
      (5 : ℤ) ∈ scanQueries 8 ∧ ¬ ((5 : ℤ) ≤ 4) :=
  ⟨by decide, by decide, by decide, by decide, by decide⟩

/-- C3 (amended): for even N ≥ 6, every index the scan reads from the
radical table lies in [0, limit] provided limit ≥ N - 3 (the largest query
is q = N - 3, not N/2). -/
theorem c3_amended_queries_bounded (N limit x : ℤ) (heven : N % 2 = 0)
    (h6 : 6 ≤ N) (hcov : N - 3 ≤ limit) (hx : x ∈ scanQueries N) :
    0 ≤ x ∧ x ≤ limit := by
  rw [scanQueries, List.mem_bind] at hx
  obtain ⟨p, hp, hxin⟩ := hx
  rw [mem_pRangeZ] at hp
  have hfd : N.fdiv 2 = N / 2 := Int.fdiv_eq_ediv N (by norm_num)
  by_cases hq : N - p ≤ 1
  · rw [if_pos hq] at hxin
    exact absurd hxin (List.not_mem_nil x)
  · rw [if_neg hq] at hxin
    simp only [List.mem_cons, List.not_mem_nil, or_false] at hxin
    rcases hxin with rfl | rfl | rfl
    · omega
    · omega
    · omega

/-- C3 witness: N = 8 with limit = 8 ≥ N - 3 bounds the query x = 5. -/
theorem c3_witness :
    (8 : ℤ) % 2 = 0 ∧ (6 : ℤ) ≤ 8 ∧ (8 : ℤ) - 3 ≤ 8 ∧
      (5 : ℤ) ∈ scanQueries 8 ∧ 0 ≤ (5 : ℤ) ∧ (5 : ℤ) ≤ 8 :=
  ⟨by decide, by decide, by decide, by decide,
    c3_amended_queries_bounded 8 8 5 (by decide) (by decide) (by decide)
      (by decide)⟩

/-- C4: on the shared domain [0, limit] of a built radical sieve, the
sieve-lookup odd radical `odd_rad` agrees exactly with the trial-division
`odd_radical`; in particular both return 1 for n ≤ 1. -/
theorem c4_odd_rad_eq_odd_radical (limit n : ℕ) (h : n ≤ limit) :
    odd_rad n (sieve_radicals limit).1 = odd_radical n ∧
      (n ≤ 1 → odd_rad n (sieve_radicals limit).1 = 1 ∧ odd_radical n = 1) := by
  have hmain : odd_rad n (sieve_radicals limit).1 = odd_radical n := by
    rw [sieve_radicals_fst, odd_rad_eq_oddRadMath (sieve_rads_eq h),
      odd_radical_eq]
  refine ⟨hmain, fun hle => ?_⟩
  have h1 : odd_radical n = 1 := by rw [odd_radical, if_pos hle]
  exact ⟨by rw [hmain, h1], h1⟩

/-- C4 witness at limit = 12, n = 12 and n = 1. -/
theorem c4_witness :
    (12 : ℕ) ≤ 12 ∧ odd_rad 12 (sieve_radicals 12).1 = odd_radical 12 ∧
      odd_rad 1 (sieve_radicals 12).1 = 1 ∧ odd_radical 1 = 1 :=
  ⟨le_rfl, (c4_odd_rad_eq_odd_radical 12 12 le_rfl).1,
    ((c4_odd_rad_eq_odd_radical 12 1 (by norm_num)).2 (by norm_num)).1,
    ((c4_odd_rad_eq_odd_radical 12 1 (by norm_num)).2 (by norm_num)).2⟩

/-- C5: after `sieve_radicals limit`, the radical table entry at every
n ≤ limit is the product of n's distinct prime factors (1 at n = 0 and
n = 1), and the returned prime set holds exactly the primes in
[2, limit]. -/
theorem c5_sieve_radicals_correct (limit n : ℕ) (h : n ≤ limit) :
    (sieve_radicals limit).1 n = radical n ∧
    (sieve_radicals limit).1 0 = 1 ∧ (sieve_radicals limit).1 1 = 1 ∧
    ∀ p : ℕ, (p ∈ (sieve_radicals limit).2 ↔ p.Prime ∧ 2 ≤ p ∧ p ≤ limit) := by
  refine ⟨by rw [sieve_radicals_fst]; exact sieve_rads_eq h, ?_, ?_, ?_⟩
  · rw [sieve_radicals_fst, sieve_rads_eq (Nat.zero_le limit)]
    simp [radical]
  · rcases Nat.eq_zero_or_pos limit with rfl | hpos
    · rfl
    · rw [sieve_radicals_fst, sieve_rads_eq hpos]
      simp [radical]
  · intro p
    rw [mem_sieve_primes]
    constructor
    · rintro ⟨hp, hle⟩
      exact ⟨hp, hp.two_le, hle⟩
    · rintro ⟨hp, -, hle⟩
      exact ⟨hp, hle⟩

/-- C5 witness at limit = 12: entry 12 and the primality of 7. -/
theorem c5_witness :
    (12 : ℕ) ≤ 12 ∧ (sieve_radicals 12).1 12 = radical 12 ∧
      (7 ∈ (sieve_radicals 12).2 ↔ Nat.Prime 7 ∧ 2 ≤ 7 ∧ 7 ≤ 12) :=
  ⟨le_rfl, (c5_sieve_radicals_correct 12 12 le_rfl).1,
    (c5_sieve_radicals_correct 12 12 le_rfl).2.2.2 7⟩

/-- C6: when N = 2^k (sieve covering the scanned range), `scan_N`'s
conductor model that folds `odd_rad(N/2)` into the base collapses to the
plain product model: `odd_rad(N/2) = 1`, every row's conductor proxy equals
`(rp * rq)^2`, and hence ρ is the product-model ρ. -/
theorem c6_power_of_two_conductor_collapse (limit k : ℕ) (row : Row)
    (hcov : (2 : ℤ) ^ k - 3 ≤ (limit : ℤ))
    (hrow : row ∈ scanOf limit ((2 : ℤ) ^ k)) :
    odd_rad (((2 : ℤ) ^ k).fdiv 2).toNat (sieve_radicals limit).1 = 1 ∧
    row.cond = (row.rp * row.rq) ^ 2 ∧
    rowRho ((2 : ℤ) ^ k) row
      = (if 1 < (row.rp * row.rq) ^ 2 then
          Real.log (((row.rp * row.rq) ^ 2 : ℕ) : ℝ)
            / Real.log (((2 : ℤ) ^ k : ℤ) : ℝ)
        else 0) := by
  have hN5 : 5 ≤ (2 : ℤ) ^ k := scan_mem_N_ge hrow
  have hk3 : 3 ≤ k := by
    by_contra hcon
    interval_cases k <;> norm_num at hN5
  have hsplit : (2 : ℤ) ^ k = 2 * 2 ^ (k - 1) := by
    rw [← pow_succ']
    congr 1
    omega
  have hfd : ((2 : ℤ) ^ k).fdiv 2 = 2 ^ (k - 1) := by
    rw [hsplit, Int.mul_fdiv_cancel_left _ (by norm_num)]
  have htn : (((2 : ℤ) ^ k).fdiv 2).toNat = 2 ^ (k - 1) := by
    rw [hfd, show ((2 : ℤ)) ^ (k - 1) = ((2 ^ (k - 1) : ℕ) : ℤ) from by
      push_cast
      ring, Int.toNat_natCast]
  have hle : 2 ^ (k - 1) ≤ limit := by
    have h4 : (4 : ℤ) ≤ 2 ^ (k - 1) := by
      calc (4 : ℤ) = 2 ^ 2 := by norm_num
        _ ≤ 2 ^ (k - 1) := pow_le_pow_right (by norm_num) (by omega)
    have h1 : (2 : ℤ) ^ (k - 1) ≤ (limit : ℤ) := by omega
    rw [show ((2 : ℤ)) ^ (k - 1) = ((2 ^ (k - 1) : ℕ) : ℤ) from by
      push_cast
      ring] at h1
    exact_mod_cast h1
  have hrm : odd_rad (((2 : ℤ) ^ k).fdiv 2).toNat (sieve_radicals limit).1 = 1 := by
    rw [htn, sieve_radicals_fst, odd_rad_eq_oddRadMath (sieve_rads_eq hle),
      oddRadMath, Nat.primeFactors_prime_pow (by omega) Nat.prime_two,
      Finset.erase_singleton, Finset.prod_empty]
  obtain ⟨p, h3, hhalf, hq2, hP, hQ, hRP, hRQ, hCOND, hCAT⟩ :=
    scan_mem_spec hrow
  have hcond : row.cond = (row.rp * row.rq) ^ 2 := by
    rw [hCOND, hrm]
    ring
  refine ⟨hrm, hcond, ?_⟩
  rw [rowRho, hcond]

/-- C6 witness: k = 4, limit = 16, the Goldbach row (3, 13). -/
theorem c6_witness :
    ((2 : ℤ) ^ 4 - 3 ≤ ((16 : ℕ) : ℤ)) ∧
    (⟨3, 13, 3, 13, 1521, Category.Goldbach⟩ : Row) ∈ scanOf 16 ((2 : ℤ) ^ 4) ∧
    (⟨3, 13, 3, 13, 1521, Category.Goldbach⟩ : Row).cond = (3 * 13) ^ 2 ∧
    odd_rad (((2 : ℤ) ^ 4).fdiv 2).toNat (sieve_radicals 16).1 = 1 :=
  ⟨by decide, by decide,
    (c6_power_of_two_conductor_collapse 16 4 _ (by decide) (by decide)).2.1,
    (c6_power_of_two_conductor_collapse 16 4
      ⟨3, 13, 3, 13, 1521, Category.Goldbach⟩ (by decide) (by decide)).1⟩

/-- C7: the per-category ρ statistics of the rigid scan are taken over
exactly the category's ρ > 0 members: the Mixed and Composite lists are
filtered in the code, and the unfiltered Goldbach list coincides with its
ρ > 0 restriction because every Goldbach row has ρ > 0; mean is `sum/length`
and bandwidth is `max - min` of those filtered values. -/
theorem c7_aggregation_rho_filtered (limit : ℕ) (N : ℤ) :
    gb_rhosOf limit N = specRhosOf limit N Category.Goldbach ∧
    mix_rhosOf limit N = specRhosOf limit N Category.Mixed ∧
    comp_rhosOf limit N = specRhosOf limit N Category.Composite ∧
    pymax (gb_rhosOf limit N) - pymin (gb_rhosOf limit N)
      = pymax (specRhosOf limit N Category.Goldbach)
        - pymin (specRhosOf limit N Category.Goldbach) ∧
    pymean (gb_rhosOf limit N)
      = (specRhosOf limit N Category.Goldbach).sum
        / (specRhosOf limit N Category.Goldbach).length ∧
    pymax (comp_rhosOf limit N) - pymin (comp_rhosOf limit N)
      = pymax (specRhosOf limit N Category.Composite)
        - pymin (specRhosOf limit N Category.Composite) := by
  have hgb : gb_rhosOf limit N = specRhosOf limit N Category.Goldbach := by
    rw [gb_rhosOf, specRhosOf, goldbach_filter_eq]
  exact ⟨hgb, rfl, rfl, by rw [hgb], by rw [hgb, pymean], rfl⟩

/-- C8: every row a scan produces has ρ ≥ 0, with ρ = 0 exactly when the
conductor proxy is ≤ 1 (rows force N = p + q ≥ 5 ≥ 2, so log N > 0). -/
theorem c8_rho_nonneg_zero_iff (N : ℤ) (rads : ℕ → ℕ) (primes : List ℕ)
    (row : Row) (hrow : row ∈ scan_N N rads primes) :
    0 ≤ rowRho N row ∧ (rowRho N row = 0 ↔ row.cond ≤ 1) := by
  have hN := scan_mem_N_ge hrow
  exact ⟨rowRho_nonneg (by omega), rowRho_eq_zero_iff (by omega)⟩

/-- C8 witness: with trivial tables every radical is 1, the row (3, 5) of
scan_N 8 has conductor 1 and ρ = 0. -/
theorem c8_witness :
    (⟨3, 5, 1, 1, 1, Category.Composite⟩ : Row) ∈ scan_N 8 (fun _ => 1) [] ∧
    (0 ≤ rowRho 8 ⟨3, 5, 1, 1, 1, Category.Composite⟩ ∧
      (rowRho 8 ⟨3, 5, 1, 1, 1, Category.Composite⟩ = 0 ↔
        (⟨3, 5, 1, 1, 1, Category.Composite⟩ : Row).cond ≤ 1)) :=
  ⟨by decide, c8_rho_nonneg_zero_iff 8 (fun _ => 1) [] _ (by decide)⟩

set_option maxRecDepth 1000000 in
/-- C9: with the sieve of `export_data.py` built for limit 1031,
`odd_radical 1024 = 1`, and the export scan of N = 1024 (product conductor
model) contains the decomposition p = 3, q = 1021 classified Goldbach, with
conductor proxy (3·1021)² = 9381969. -/
theorem c9_scenario_N1024 :
    odd_radical 1024 = 1 ∧
    (⟨1024, 3, 1021, Category.Goldbach, 3, 1021, 9381969⟩ : ERow)
      ∈ exportScan 1024 (sieve 1031) ∧
    9381969 = (3 * 1021) ^ 2 := by
  refine ⟨by decide, ?_, by norm_num⟩
  rw [exportScan, List.mem_filterMap]
  refine ⟨3, by decide, ?_⟩
  have hs : Nat.sqrt 1031 = 32 := by
    have h1 : 32 ≤ Nat.sqrt 1031 := Nat.le_sqrt.2 (by norm_num)
    have h2 : Nat.sqrt 1031 < 33 := Nat.sqrt_lt.2 (by norm_num)
    omega
  rw [sieve, hs]
  decide

/-- C10: for even N ≥ 6 with an adequate sieve, every row `scan_N`
classifies Goldbach has conductor proxy ≥ 81 > 1 and hence ρ > 0, so the
code's unfiltered Goldbach ρ list equals the spec's ρ > 0 filtered list. -/
theorem c10_goldbach_rho_positive (limit : ℕ) (N : ℤ) (row : Row)
    (heven : N % 2 = 0) (h6 : 6 ≤ N) (hcov : N - 3 ≤ (limit : ℤ))
    (hrow : row ∈ scanOf limit N) (hcat : row.cat = Category.Goldbach) :
    1 < row.cond ∧ 81 ≤ row.cond ∧ 0 < rowRho N row ∧
      gb_rhosOf limit N = specRhosOf limit N Category.Goldbach := by
  have hf := goldbach_row_facts hrow hcat
  have h81 := hf.2.2.2.2
  exact ⟨by omega, h81, goldbach_rho_pos hrow hcat,
    by rw [gb_rhosOf, specRhosOf, goldbach_filter_eq]⟩

/-- C10 witness: the Goldbach row (3, 5) of scan_N 8 over the sieve built
to limit 8. -/
theorem c10_witness :
    (⟨3, 5, 3, 5, 225, Category.Goldbach⟩ : Row) ∈ scanOf 8 8 ∧
    81 ≤ (⟨3, 5, 3, 5, 225, Category.Goldbach⟩ : Row).cond ∧
    0 < rowRho 8 ⟨3, 5, 3, 5, 225, Category.Goldbach⟩ :=
  ⟨by decide,
    (c10_goldbach_rho_positive 8 8 _ (by decide) (by decide) (by decide)
      (by decide) rfl).2.1,
    (c10_goldbach_rho_positive 8 8 _ (by decide) (by decide) (by decide)
      (by decide) rfl).2.2.1⟩
